import Mathlib

/-!
Verification of the try-rs interactive project-scratchpad launcher.

The definitions below are a shallow embedding of the Rust sources:
`src/main.rs` (entry loader `App::new`, filter engine `App::update_search`,
the event loop `run_app`, and the post-loop name resolution in `main`) and
`src/utils.rs` (`extract_prefix_date`, `matching_folders`,
`SelectionResult`).  Filesystem interaction is made explicit: a directory
listing is passed in as data (`Listing`), where `Option.none` at the outer
level models a failing `read_dir`, an inner `Option.none` models an errored
directory entry (skipped by `.flatten()`), and `Metadata` carries the
`is_dir` flag and the (possibly unavailable) modification time.
The fuzzy scorer (`SkimMatcherV2::fuzzy_match`) is an external capability
of type `score(name, query) -> Option<i64>`; it is modelled as an abstract
parameter `Matcher`.
-/

namespace TryRs

/-- The external fuzzy scorer: `fuzzy_match(name, query) -> Option<score>`. -/
abbrev Matcher := String → String → Option Int

/-- Embeds `struct TryEntry { name, modified, score }` from `src/main.rs`.
`modified : Nat` is the `SystemTime` as a tick count, `UNIX_EPOCH` being `0`. -/
structure TryEntry where
  name : String
  modified : Nat
  score : Int
deriving DecidableEq, Repr

instance : Inhabited TryEntry := ⟨⟨"", 0, 0⟩⟩

/-- Metadata of one directory entry: the `is_dir` flag and the modification
time (`Option.none` models `metadata.modified()` returning `Err`, which the
code replaces by `UNIX_EPOCH`). -/
structure Metadata where
  is_dir : Bool
  modified : Option Nat
deriving DecidableEq, Repr

/-- One result of `fs::read_dir`: a file name plus its metadata
(`Option.none` models `entry.metadata()` returning `Err`). -/
structure FsDirEntry where
  name : String
  metadata : Option Metadata
deriving DecidableEq, Repr

/-- A snapshot of `fs::read_dir(path)`: `Option.none` models the call itself
failing; each inner `Option.none` models an errored entry, which
`read_dir.flatten()` skips. -/
abbrev Listing := Option (List (Option FsDirEntry))

/-- The successfully read entries of a listing, in iteration order:
`read_dir.flatten()` composed with the metadata/is-dir filter of
`App::new` (`src/main.rs` lines 32-46), before the initial sort. -/
def load_entries (l : Listing) : List TryEntry :=
  match l with
  | Option.none => []
  | Option.some items =>
    (items.filterMap id).filterMap fun e =>
      match e.metadata with
      | Option.some md =>
        if md.is_dir then Option.some ⟨e.name, md.modified.getD 0, 0⟩ else Option.none
      | Option.none => Option.none

/-- The comparison `|a, b| b.modified.cmp(&a.modified)` used by the initial
sort in `App::new`: most recently modified first. -/
def modified_desc (a b : TryEntry) : Bool :=
  decide (b.modified ≤ a.modified)

/-- The comparison `|a, b| b.score.cmp(&a.score)` used by `update_search`:
higher score first. -/
def score_desc (a b : TryEntry) : Bool :=
  decide (b.score ≤ a.score)

/-- Embeds `struct App` from `src/main.rs`. -/
structure App where
  query : String
  all_entries : List TryEntry
  filtered_entries : List TryEntry
  selected_index : Nat
  should_quit : Bool
  final_selection : Option String
deriving DecidableEq, Repr

/-- Embeds `App::new` (`src/main.rs` lines 32-58): load the immediate child
directories, sort them by modification time descending, start with an empty
query, cursor `0`, and no outcome. -/
def App.new (l : Listing) : App :=
  let entries := (load_entries l).mergeSort modified_desc
  { query := ""
    all_entries := entries
    filtered_entries := entries
    selected_index := 0
    should_quit := false
    final_selection := Option.none }

/-- Embeds `App::update_search` (`src/main.rs` lines 61-83), parameterised by
the fuzzy scorer `m`: an empty query restores the full entry list; otherwise
unmatched entries are dropped, matched ones get their score attached and are
sorted descending by score.  Both branches reset the cursor to `0`. -/
def update_search (m : Matcher) (a : App) : App :=
  if a.query = "" then
    { a with filtered_entries := a.all_entries, selected_index := 0 }
  else
    let fe := a.all_entries.filterMap fun e =>
      (m e.name a.query).map fun sc => { e with score := sc }
    { a with filtered_entries := fe.mergeSort score_desc, selected_index := 0 }

/-- `String::pop`: remove the last character (no-op on the empty string). -/
def string_pop (s : String) : String :=
  ⟨s.data.dropLast⟩

/-- The keyboard events dispatched by `run_app` (`src/main.rs` lines 148-182);
`other` is the `_ => {}` arm. -/
inductive TermEvent where
  | char (c : Char)
  | backspace
  | up
  | down
  | enter
  | esc
  | other
deriving DecidableEq, Repr

/-- Embeds one iteration of the event match in `run_app`
(`src/main.rs` lines 148-182).  `enter` uses `List.getD` for the Rust
indexing `filtered_entries[selected_index]`; the cursor invariant proved
below shows the index is in range in every reachable state. -/
def handle_event (m : Matcher) (ev : TermEvent) (a : App) : App :=
  match ev with
  | .char c => update_search m { a with query := a.query.push c }
  | .backspace => update_search m { a with query := string_pop a.query }
  | .up =>
    if a.selected_index > 0 then
      { a with selected_index := a.selected_index - 1 }
    else a
  | .down =>
    if a.selected_index < a.filtered_entries.length - 1 then
      { a with selected_index := a.selected_index + 1 }
    else a
  | .enter =>
    let a2 :=
      if a.filtered_entries = [] then
        if a.query = "" then a
        else { a with final_selection := Option.some a.query }
      else
        { a with final_selection :=
            Option.some (a.filtered_entries.getD a.selected_index default).name }
    { a2 with should_quit := true }
  | .esc => { a with should_quit := true }
  | .other => a

/-- The states of the selection loop reachable from `App::new l` by
dispatching events while `should_quit` is still false — exactly the states
the `while !app.should_quit` loop of `run_app` can be in. -/
inductive Reachable (m : Matcher) (l : Listing) : App → Prop where
  | init : Reachable m l (App.new l)
  | step {a : App} (ev : TermEvent) :
      Reachable m l a → a.should_quit = false → Reachable m l (handle_event m ev a)

/-- A parsed calendar date (the result of
`NaiveDate::parse_from_str(lhs, "%Y-%m-%d")` in `src/utils.rs`).  The year
is signed: chrono's `%Y` accepts an explicit `+`/`-` sign. -/
structure PDate where
  year : Int
  month : Nat
  day : Nat
deriving DecidableEq, Repr

/-- Gregorian leap-year test on the signed year, as `chrono` computes it
for `NaiveDate` validity (the `= 0` divisibility tests agree between
Rust's truncated `%` and `Int.emod`). -/
def is_leap_year (y : Int) : Bool :=
  (y % 4 = 0 && y % 100 ≠ 0) || y % 400 = 0

/-- Number of days of month `m` in year `y` (months numbered 1-12). -/
def days_in_month (y : Int) (m : Nat) : Nat :=
  if m = 2 then (if is_leap_year y then 29 else 28)
  else if m = 4 ∨ m = 6 ∨ m = 9 ∨ m = 11 then 30
  else 31

/-- Numeric value of an ASCII digit. -/
def digit_val (c : Char) : Nat :=
  c.toNat - '0'.toNat

/-- Rust's `char::is_whitespace` (the Unicode `White_Space` property),
which `chrono` uses to skip whitespace before each numeric field. -/
def rust_is_whitespace (c : Char) : Bool :=
  c = '\t' || c = '\n' || c = '\x0B' || c = '\x0C' || c = '\r' || c = ' ' ||
  c = '\u0085' || c = '\u00A0' || c = '\u1680' ||
  ('\u2000' ≤ c && c ≤ '\u200A') ||
  c = '\u2028' || c = '\u2029' || c = '\u202F' || c = '\u205F' || c = '\u3000'

/-- Take at most `max` leading ASCII digits, returning them and the rest:
`chrono`'s `scan::number` digit consumption (greedy, bounded). -/
def take_digits_upto : Nat → List Char → (List Char × List Char)
  | 0, s => ([], s)
  | _ + 1, [] => ([], [])
  | n + 1, c :: rest =>
    if c.isDigit then
      let p := take_digits_upto n rest
      (c :: p.1, p.2)
    else ([], c :: rest)

/-- The value of a digit string, most significant first. -/
def digits_to_nat (ds : List Char) : Nat :=
  ds.foldl (fun acc c => acc * 10 + digit_val c) 0

/-- `chrono`'s `scan::number(s, 1, max)`: between 1 and `max` leading
digits, consumed greedily, otherwise failure. -/
def scan_number (max : Nat) (s : List Char) : Option (Nat × List Char) :=
  let p := take_digits_upto max s
  if p.1.length = 0 then Option.none else Option.some (digits_to_nat p.1, p.2)

/-- Parsing of the `%Y` field by `chrono`: leading whitespace is skipped;
an explicit `-` or `+` sign admits any number of digits, while an unsigned
year takes at most 4 digits (greedily).  Out-of-`i64`-range overflow in the
source is subsumed by the `NaiveDate` year-range check in `parse_date`. -/
def parse_year (s : List Char) : Option (Int × List Char) :=
  match s.dropWhile rust_is_whitespace with
  | '-' :: rest =>
    (scan_number rest.length rest).map fun p => (-(p.1 : Int), p.2)
  | '+' :: rest =>
    (scan_number rest.length rest).map fun p => ((p.1 : Int), p.2)
  | s2 => (scan_number 4 s2).map fun p => ((p.1 : Int), p.2)

/-- Parsing of the unsigned `%m` / `%d` fields by `chrono`: leading
whitespace skipped, then 1 or 2 digits, greedily. -/
def parse_two (s : List Char) : Option (Nat × List Char) :=
  scan_number 2 (s.dropWhile rust_is_whitespace)

/-- Embeds `NaiveDate::parse_from_str(lhs, "%Y-%m-%d")` with
`DATE_PREFIX_FORMAT = "%Y-%m-%d"` (`src/utils.rs` line 9).  Following
`chrono`'s lenient numeric parsing: the year is 1-4 digits unsigned or
explicitly signed with any number of digits, month and day are 1-2 digits,
each numeric field may be preceded by whitespace, the two `-` literals
must match exactly, the whole string must be consumed, and the three
numbers must form a valid proleptic-Gregorian calendar date within
`NaiveDate`'s supported year range `[-262144, 262143]`. -/
def parse_date (s : List Char) : Option PDate :=
  match parse_year s with
  | Option.none => Option.none
  | Option.some (y, r1) =>
    match r1 with
    | '-' :: r2 =>
      match parse_two r2 with
      | Option.none => Option.none
      | Option.some (m, r3) =>
        match r3 with
        | '-' :: r4 =>
          match parse_two r4 with
          | Option.none => Option.none
          | Option.some (d, r5) =>
            if r5 = [] ∧ 1 ≤ m ∧ m ≤ 12 ∧ 1 ≤ d ∧ d ≤ days_in_month y m ∧
                -262144 ≤ y ∧ y ≤ 262143 then
              Option.some ⟨y, m, d⟩
            else Option.none
        | _ => Option.none
    | _ => Option.none

/-- Embeds `str::split_once(' ')`: split at the first space, yielding the
part before it and the part after it, or `Option.none` when there is no
space at all. -/
def split_once : List Char → Option (List Char × List Char)
  | [] => Option.none
  | c :: rest =>
    if c = ' ' then Option.some ([], rest)
    else (split_once rest).map fun p => (c :: p.1, p.2)

/-- `extract_prefix_date` (`src/utils.rs` lines 133-139) generalised over
the ambient timezone: split the name at the first space, parse the left
part as a `%Y-%m-%d` date, and keep it only if its local midnight exists
uniquely.  `single_ok d` is the outcome of the
`dt.and_local_timezone(Local).single()?` step of `src/utils.rs` line 137,
which depends on the runtime timezone database and is therefore an oracle
of the embedding (it can fail only for dates whose local midnight is
skipped or repeated by a UTC-offset transition). -/
def extract_prefix_date_tz (single_ok : PDate → Bool) (name : List Char) :
    Option (PDate × List Char) :=
  match split_once name with
  | Option.some (lhs, rhs) =>
    (parse_date lhs).bind fun d =>
      if single_ok d then Option.some (d, rhs) else Option.none
  | Option.none => Option.none

/-- Embeds `extract_prefix_date` (`src/utils.rs` lines 133-139),
instantiating the local-midnight oracle for an ambient timezone with a
fixed UTC offset (e.g. `TZ=UTC`), where
`and_local_timezone(Local).single()` succeeds for every date;
`extract_prefix_date_tz` keeps that step abstract. -/
def extract_prefix_date (name : List Char) : Option (PDate × List Char) :=
  extract_prefix_date_tz (fun _ => true) name

/-- Embeds `matching_folders` (`src/utils.rs` lines 172-191): among the
immediate child directories of the base path (given as a `Listing`
snapshot, like `App::new`), keep every name that either equals `name`
literally or decomposes by `extract_prefix_date` into a date plus a rest
equal to `name`. -/
def matching_folders (name : String) (listing : List (Option FsDirEntry)) : List String :=
  (listing.filterMap id).filterMap fun e =>
    match e.metadata with
    | Option.some md =>
      if md.is_dir then
        if e.name = name then Option.some e.name
        else
          match extract_prefix_date e.name.data with
          | Option.some (_, stripped) =>
            if name.data = stripped then Option.some e.name else Option.none
          | Option.none => Option.none
      else Option.none
    | Option.none => Option.none

/-- Embeds `enum SelectionResult` (`src/utils.rs` lines 194-201). -/
inductive SelectionResult where
  /-- A explicit folder that is guaranteed to exist already. -/
  | Folder (name : String)
  /-- No existing match, a new folder should be created. -/
  | New (name : String)
  /-- Nothing was selected in the UI, quit. -/
  | none
deriving DecidableEq, Repr

/-- Embeds the post-loop name resolution of `main` (`src/main.rs` lines
214-235), expressed with the repository's own `SelectionResult` outcome
type: `existing` is the set of directory names under the tries directory
(`target_path.exists()` becomes membership), `today` is
`Local::now().format("%Y-%m-%d")`.  When the selection does not exist, the
created name is the selection itself if it already starts with today's date
string, and otherwise `format!("{}-{}", date_prefix, selection)`. -/
def resolve_selection (existing : List String) (today : String)
    (sel : Option String) : SelectionResult :=
  match sel with
  | Option.none => SelectionResult.none
  | Option.some s =>
    if s ∈ existing then SelectionResult.Folder s
    else
      SelectionResult.New (if today.data.isPrefixOf s.data then s else today ++ "-" ++ s)

/-- The directory that `main` creates (`fs::create_dir_all(&new_path)`):
only the `New` branch of the resolution creates anything. -/
def created_dir (existing : List String) (today : String)
    (sel : Option String) : Option String :=
  match resolve_selection existing today sel with
  | SelectionResult.New n => Option.some n
  | _ => Option.none

/-- The observable terminal modes `main` toggles: raw mode
(`enable_raw_mode`/`disable_raw_mode`), the alternate screen
(`EnterAlternateScreen`/`LeaveAlternateScreen`) and cursor visibility
(`show_cursor`). -/
structure TermState where
  raw_mode : Bool
  alt_screen : Bool
  cursor_shown : Bool
deriving DecidableEq, Repr

/-- Which of `main`'s fallible steps succeed in a given run, in program
order (`src/main.rs` lines 190-237): `fs::create_dir_all(&tries_dir)?`,
`enable_raw_mode()?`, `execute!(stderr, EnterAlternateScreen)?`,
`Terminal::new(backend)?`, the captured `run_app` result,
`disable_raw_mode()?`, `execute!(.., LeaveAlternateScreen)?`,
`terminal.show_cursor()?`. -/
structure MainEnv where
  create_dir_ok : Bool
  enable_raw_ok : Bool
  enter_alt_ok : Bool
  new_terminal_ok : Bool
  run_app_result : Except Unit (Option String)
  disable_raw_ok : Bool
  leave_alt_ok : Bool
  show_cursor_ok : Bool
deriving Repr

/-- Embeds the control flow of `main` (`src/main.rs` lines 190-237) up to
the point where the selection is processed, threading the terminal state.
Each `?` is an early return carrying the terminal state as it stands at
that moment; the `run_app` result is captured in `res` (not propagated), so
its error does not skip the restoration sequence.  The returned value is
the selection `main` goes on to resolve (`Option.none` both for an aborted
session and for a failed `run_app`, since `main` matches `Ok(Some(..))`). -/
def main_flow (env : MainEnv) : Except Unit (Option String) × TermState :=
  let st0 : TermState := ⟨false, false, true⟩
  if !env.create_dir_ok then (Except.error (), st0)
  else if !env.enable_raw_ok then (Except.error (), st0)
  else
    let st1 := { st0 with raw_mode := true }
    if !env.enter_alt_ok then (Except.error (), st1)
    else
      let st2 := { st1 with alt_screen := true }
      if !env.new_terminal_ok then (Except.error (), st2)
      else
        if !env.disable_raw_ok then (Except.error (), st2)
        else
          let st3 := { st2 with raw_mode := false }
          if !env.leave_alt_ok then (Except.error (), st3)
          else
            let st4 := { st3 with alt_screen := false }
            if !env.show_cursor_ok then (Except.error (), st4)
            else
              match env.run_app_result with
              | Except.ok sel => (Except.ok sel, st4)
              | Except.error _ => (Except.ok Option.none, st4)

/-! ### Helper lemmas -/

/-- Membership in the loaded entry list, spelled out: an entry is loaded
exactly when the listing succeeded and contains a successfully read
directory child with readable metadata carrying that name and time. -/
lemma mem_load_entries {l : Listing} {e : TryEntry} :
    e ∈ load_entries l ↔
      ∃ items, l = Option.some items ∧ ∃ d ∈ items, ∃ dd : FsDirEntry,
        d = Option.some dd ∧ ∃ md, dd.metadata = Option.some md ∧
          md.is_dir = true ∧ e = ⟨dd.name, md.modified.getD 0, 0⟩ := by
  cases l with
  | none => simp [load_entries]
  | some items =>
    simp only [load_entries, List.mem_filterMap, List.mem_filterMap, Option.some.injEq]
    constructor
    · rintro ⟨dd, ⟨d, hd, hid⟩, hdd⟩
      cases hmd : dd.metadata with
      | none => rw [hmd] at hdd; exact absurd hdd (by simp)
      | some md =>
        rw [hmd] at hdd
        by_cases hdir : md.is_dir
        · simp only [hdir, if_true, Option.some.injEq] at hdd
          exact ⟨items, rfl, d, hd, dd, (Option.mem_def.mp hid), md, hmd, hdir, hdd.symm⟩
        · simp [hdir] at hdd
    · rintro ⟨items2, hit, d, hd, dd, hdds, md, hmd, hdir, he⟩
      cases hit
      refine ⟨dd, ⟨d, hd, by simp [hdds]⟩, ?_⟩
      rw [hmd]
      simp [hdir, he]

/-- `modified_desc` is transitive. -/
lemma modified_desc_trans (a b c : TryEntry) :
    modified_desc a b → modified_desc b c → modified_desc a c := by
  simp only [modified_desc, decide_eq_true_eq]
  omega

/-- `modified_desc` is total. -/
lemma modified_desc_total (a b : TryEntry) :
    modified_desc a b || modified_desc b a := by
  simp only [modified_desc, Bool.or_eq_true, decide_eq_true_eq]
  omega

/-- `score_desc` is transitive. -/
lemma score_desc_trans (a b c : TryEntry) :
    score_desc a b → score_desc b c → score_desc a c := by
  simp only [score_desc, decide_eq_true_eq]
  omega

/-- `score_desc` is total. -/
lemma score_desc_total (a b : TryEntry) :
    score_desc a b || score_desc b a := by
  simp only [score_desc, Bool.or_eq_true, decide_eq_true_eq]
  omega

/-- The inductive invariant of the selection loop: the full list never
changes after load, the cursor is `0` on an empty filtered list and in
range on a non-empty one, the outcome is unset while the loop is running,
filtered entries are (rescored) entries of the full list, and any produced
outcome is a non-empty typed query or the name of a loaded entry. -/
structure AppInv (l : Listing) (a : App) : Prop where
  all_eq : a.all_entries = (App.new l).all_entries
  cursor_zero : a.filtered_entries = [] → a.selected_index = 0
  cursor_lt : a.filtered_entries ≠ [] → a.selected_index < a.filtered_entries.length
  active_none : a.should_quit = false → a.final_selection = Option.none
  filtered_names : ∀ e ∈ a.filtered_entries, ∃ e2 ∈ a.all_entries, e.name = e2.name
  final_src : ∀ s, a.final_selection = Option.some s →
      s ≠ "" ∨ ∃ e ∈ (App.new l).all_entries, s = e.name

/-- `update_search` preserves the loop invariant (it rebuilds
`filtered_entries` from `all_entries` and resets the cursor). -/
lemma appInv_update_search {l : Listing} {a : App} (m : Matcher)
    (h : AppInv l a) : AppInv l (update_search m a) := by
  unfold update_search
  by_cases hq : a.query = ""
  · simp only [hq, if_true]
    exact {
      all_eq := h.all_eq
      cursor_zero := fun _ => rfl
      cursor_lt := fun hne => List.length_pos.mpr hne
      active_none := fun hsq => h.active_none hsq
      filtered_names := fun e he => ⟨e, he, rfl⟩
      final_src := h.final_src }
  · simp only [hq, if_false]
    refine {
      all_eq := h.all_eq
      cursor_zero := fun _ => rfl
      cursor_lt := fun hne => List.length_pos.mpr hne
      active_none := fun hsq => h.active_none hsq
      filtered_names := ?_
      final_src := h.final_src }
    intro e he
    simp only [List.mem_mergeSort, List.mem_filterMap, Option.map_eq_some'] at he
    obtain ⟨e0, he0, sc, _, hsc⟩ := he
    exact ⟨e0, he0, by rw [← hsc]⟩

/-- Every reachable state of the selection loop satisfies the invariant. -/
lemma reachable_appInv {m : Matcher} {l : Listing} {a : App}
    (h : Reachable m l a) : AppInv l a := by
  induction h with
  | init =>
    exact {
      all_eq := rfl
      cursor_zero := fun _ => rfl
      cursor_lt := fun hne => List.length_pos.mpr hne
      active_none := fun _ => rfl
      filtered_names := fun e he => ⟨e, he, rfl⟩
      final_src := fun s hs => by simp [App.new] at hs }
  | @step a0 ev _ hrun ih =>
    cases ev with
    | char c => exact appInv_update_search m {
        all_eq := ih.all_eq
        cursor_zero := ih.cursor_zero
        cursor_lt := ih.cursor_lt
        active_none := fun _ => ih.active_none hrun
        filtered_names := ih.filtered_names
        final_src := ih.final_src }
    | backspace => exact appInv_update_search m {
        all_eq := ih.all_eq
        cursor_zero := ih.cursor_zero
        cursor_lt := ih.cursor_lt
        active_none := fun _ => ih.active_none hrun
        filtered_names := ih.filtered_names
        final_src := ih.final_src }
    | up =>
      simp only [handle_event]
      by_cases hpos : a0.selected_index > 0
      · rw [if_pos hpos]
        exact {
          all_eq := ih.all_eq
          cursor_zero := fun hemp => by
            have h0 := ih.cursor_zero hemp
            show a0.selected_index - 1 = 0
            omega
          cursor_lt := fun hne => by
            have h1 := ih.cursor_lt hne
            show a0.selected_index - 1 < a0.filtered_entries.length
            omega
          active_none := ih.active_none
          filtered_names := ih.filtered_names
          final_src := ih.final_src }
      · rw [if_neg hpos]
        exact ih
    | down =>
      simp only [handle_event]
      by_cases hlt : a0.selected_index < a0.filtered_entries.length - 1
      · rw [if_pos hlt]
        exact {
          all_eq := ih.all_eq
          cursor_zero := fun hemp => by
            have hemp' : a0.filtered_entries = [] := hemp
            rw [hemp'] at hlt
            simp at hlt
          cursor_lt := fun _ => by
            show a0.selected_index + 1 < a0.filtered_entries.length
            omega
          active_none := ih.active_none
          filtered_names := ih.filtered_names
          final_src := ih.final_src }
      · rw [if_neg hlt]
        exact ih
    | enter =>
      simp only [handle_event]
      by_cases hemp : a0.filtered_entries = []
      · rw [if_pos hemp]
        by_cases hq : a0.query = ""
        · rw [if_pos hq]
          exact {
            all_eq := ih.all_eq
            cursor_zero := ih.cursor_zero
            cursor_lt := ih.cursor_lt
            active_none := fun hsq => by simp at hsq
            filtered_names := ih.filtered_names
            final_src := ih.final_src }
        · rw [if_neg hq]
          exact {
            all_eq := ih.all_eq
            cursor_zero := ih.cursor_zero
            cursor_lt := ih.cursor_lt
            active_none := fun hsq => by simp at hsq
            filtered_names := ih.filtered_names
            final_src := fun s hs => by
              have hqs : a0.query = s := by simpa using hs
              exact Or.inl (hqs ▸ hq) }
      · rw [if_neg hemp]
        refine {
          all_eq := ih.all_eq
          cursor_zero := ih.cursor_zero
          cursor_lt := ih.cursor_lt
          active_none := fun hsq => by simp at hsq
          filtered_names := ih.filtered_names
          final_src := ?_ }
        intro s hs
        have hname0 : (a0.filtered_entries.getD a0.selected_index default).name = s := by
          simpa using hs
        have hidx : a0.selected_index < a0.filtered_entries.length := ih.cursor_lt hemp
        have hmem : a0.filtered_entries.getD a0.selected_index default ∈ a0.filtered_entries := by
          rw [List.getD_eq_getElem?_getD, List.getElem?_eq_getElem hidx]
          exact List.getElem_mem hidx
        obtain ⟨e2, he2, hname⟩ := ih.filtered_names _ hmem
        exact Or.inr ⟨e2, ih.all_eq ▸ he2, hname0 ▸ hname⟩
    | esc =>
      simp only [handle_event]
      exact {
        all_eq := ih.all_eq
        cursor_zero := ih.cursor_zero
        cursor_lt := ih.cursor_lt
        active_none := fun hsq => by simp at hsq
        filtered_names := ih.filtered_names
        final_src := ih.final_src }
    | other =>
      simp only [handle_event]
      exact ih

/-- `split_once` succeeds exactly on the decomposition at the first space:
the left part is space-free and the original string is the left part, one
space, then the right part. -/
lemma split_once_eq_some_iff {s lhs rhs : List Char} :
    split_once s = Option.some (lhs, rhs) ↔ s = lhs ++ ' ' :: rhs ∧ ' ' ∉ lhs := by
  induction s generalizing lhs rhs with
  | nil =>
    simp only [split_once]
    constructor
    · intro h; exact absurd h (by simp)
    · rintro ⟨heq, _⟩
      exact absurd heq (by simp)
  | cons c rest ih =>
    simp only [split_once]
    by_cases hc : c = ' '
    · subst hc
      rw [if_pos rfl]
      constructor
      · intro h
        have h1 : ([] : List Char) = lhs ∧ rest = rhs := by
          constructor
          · exact congrArg (·.1) (Option.some.inj h)
          · exact congrArg (·.2) (Option.some.inj h)
        obtain ⟨h2, h3⟩ := h1
        subst h2; subst h3
        exact ⟨rfl, List.not_mem_nil _⟩
      · rintro ⟨heq, hnm⟩
        cases lhs with
        | nil =>
          simp only [List.nil_append, List.cons.injEq] at heq
          rw [heq.2]
        | cons x xs =>
          simp only [List.cons_append, List.cons.injEq] at heq
          exact absurd (heq.1 ▸ List.mem_cons_self x xs) (heq.1 ▸ hnm)
    · rw [if_neg hc]
      constructor
      · intro h
        rw [Option.map_eq_some'] at h
        obtain ⟨⟨l0, r0⟩, hsp, heq⟩ := h
        have h1 : c :: l0 = lhs := congrArg (·.1) heq
        have h2 : r0 = rhs := congrArg (·.2) heq
        obtain ⟨hrest, hnm0⟩ := ih.mp hsp
        subst h1; subst h2
        refine ⟨by rw [hrest]; rfl, ?_⟩
        intro hmem
        rcases List.mem_cons.mp hmem with h | h
        · exact hc h.symm
        · exact hnm0 h
      · rintro ⟨heq, hnm⟩
        cases lhs with
        | nil =>
          simp only [List.nil_append, List.cons.injEq] at heq
          exact absurd heq.1 hc
        | cons x xs =>
          simp only [List.cons_append, List.cons.injEq] at heq
          have hxs : split_once rest = Option.some (xs, rhs) :=
            ih.mpr ⟨heq.2, fun hm => hnm (List.mem_cons_of_mem x hm)⟩
          rw [hxs]
          simp only [Option.map_some']
          rw [heq.1]

/-- `split_once` fails exactly when the string has no space at all. -/
lemma split_once_eq_none_iff {s : List Char} :
    split_once s = Option.none ↔ ' ' ∉ s := by
  induction s with
  | nil => simp [split_once]
  | cons c rest ih =>
    simp only [split_once]
    by_cases hc : c = ' '
    · subst hc
      rw [if_pos rfl]
      simp
    · rw [if_neg hc]
      rw [Option.map_eq_none']
      rw [ih]
      simp [List.mem_cons, fun h => hc (Eq.symm h)]
      intro h
      exact fun heq => hc heq.symm

/-- Success of the parse-then-timezone-filter step: the parse yielded a
date whose local midnight is unique. -/
lemma bind_single_isSome {single_ok : PDate → Bool} {o : Option PDate}
    {rhs : List Char} :
    ((o.bind fun d =>
        if single_ok d then Option.some (d, rhs) else Option.none).isSome = true)
      ↔ ∃ d, o = Option.some d ∧ single_ok d = true := by
  cases o with
  | none => simp
  | some d =>
    by_cases hok : single_ok d = true
    · simp [hok]
    · simp [hok]

/-! ### Claims -/

/-- C1: the claim says that with the date-prefix option on, a fresh
candidate `"newname"` resolved on `2024-06-15` yields
`New("2024-06-15 newname")` — date and rest separated by a space — while a
candidate already starting with today's date is used verbatim.  The code
(`src/main.rs` lines 220-234) consults no option and joins the date with a
hyphen: at the claim's own example input the outcome is
`New("2024-06-15-newname")`, not `New("2024-06-15 newname")`; only the
no-double-prefixing half holds. -/
theorem C1_resolver_uses_hyphen_not_space :
    resolve_selection [] "2024-06-15" (Option.some "newname")
        = SelectionResult.New "2024-06-15-newname"
    ∧ SelectionResult.New "2024-06-15-newname"
        ≠ SelectionResult.New "2024-06-15 newname"
    ∧ resolve_selection [] "2024-06-15" (Option.some "2024-06-15 newname")
        = SelectionResult.New "2024-06-15 newname" := by
  refine ⟨by decide, by decide, by decide⟩

/-- C2: the claim says that when no directory literally named `"proj"`
exists but `"2020-02-02 proj"` does, resolution yields
`Folder("2020-02-02 proj")`.  The scan helper `matching_folders`
(`src/utils.rs` lines 172-191) does find the dated variant, but the
resolution in `main` (`src/main.rs` lines 214-235) never calls it: it only
tests literal existence and then creates a fresh date-prefixed folder. -/
theorem C2_resolver_ignores_dated_variant :
    matching_folders "proj"
        [Option.some ⟨"2020-02-02 proj", Option.some ⟨true, Option.some 0⟩⟩]
        = ["2020-02-02 proj"]
    ∧ resolve_selection ["2020-02-02 proj"] "2024-06-15" (Option.some "proj")
        = SelectionResult.New "2024-06-15-proj"
    ∧ SelectionResult.New "2024-06-15-proj"
        ≠ SelectionResult.Folder "2020-02-02 proj" := by
  refine ⟨by decide, by decide, by decide⟩

/-- C3: the claim says that with the date-prefix option off, a fresh
candidate `"foo"` resolves to `New("foo")` verbatim.  The code
(`src/main.rs` lines 220-234) reads no configuration at this point and
unconditionally prefixes today's date, producing `New("2024-06-15-foo")`
instead of `New("foo")`. -/
theorem C3_prefix_applied_unconditionally :
    resolve_selection [] "2024-06-15" (Option.some "foo")
        = SelectionResult.New "2024-06-15-foo"
    ∧ SelectionResult.New "2024-06-15-foo" ≠ SelectionResult.New "foo" := by
  refine ⟨by decide, by decide⟩

/-- C4 counterexample: the claim requires the date-prefix parser to succeed
only when the part after the first space is non-empty, but
`extract_prefix_date` (`src/utils.rs` lines 133-139) never checks that:
on `"2024-06-15 "` (a date, a space, and nothing after it) it succeeds
with an empty rest. -/
theorem C4_counterexample_empty_rest :
    ¬ (∀ (name : List Char) (d : PDate) (rhs : List Char),
        extract_prefix_date name = Option.some (d, rhs) → rhs ≠ []) := by
  intro h
  exact h "2024-06-15 ".data ⟨2024, 6, 15⟩ [] (by decide) rfl

/-- C4 (amended): for every ambient-timezone oracle, the date-prefix
parser succeeds if and only if the name splits at its first space
character into `(lhs, rhs)` — `lhs` space-free — `lhs` parses as a
calendar date under chrono's lenient `%Y-%m-%d` format (`parse_date`:
optionally signed 1-4 digit year, 1-2 digit month and day, whitespace
tolerated before each number, validated as a real calendar date), and the
parsed date's local midnight exists uniquely; the rest `rhs` may be empty.
A bare date with no space is never a match, and the program's parser is
the fixed-offset-timezone instance of the oracle. -/
theorem C4_parse_succeeds_iff_first_space_split (single_ok : PDate → Bool)
    (name : List Char) :
    ((extract_prefix_date_tz single_ok name).isSome = true ↔
      ∃ lhs rhs, name = lhs ++ ' ' :: rhs ∧ ' ' ∉ lhs ∧
        ∃ d, parse_date lhs = Option.some d ∧ single_ok d = true)
    ∧ ((' ' ∉ name) → extract_prefix_date_tz single_ok name = Option.none)
    ∧ extract_prefix_date name = extract_prefix_date_tz (fun _ => true) name := by
  refine ⟨?_, ?_, rfl⟩
  · unfold extract_prefix_date_tz
    cases hs : split_once name with
    | none =>
      simp only [Option.isSome_none, Bool.false_eq_true, false_iff]
      rintro ⟨lhs, rhs, heq, hnm, _⟩
      have := split_once_eq_some_iff.mpr ⟨heq, hnm⟩
      rw [hs] at this
      exact absurd this (by simp)
    | some p =>
      obtain ⟨lhs0, rhs0⟩ := p
      obtain ⟨heq0, hnm0⟩ := split_once_eq_some_iff.mp hs
      rw [show (match Option.some (lhs0, rhs0) with
          | Option.some (lhs, rhs) =>
            (parse_date lhs).bind fun d =>
              if single_ok d then Option.some (d, rhs) else Option.none
          | Option.none => (Option.none : Option (PDate × List Char)))
        = (parse_date lhs0).bind fun d =>
            if single_ok d then Option.some (d, rhs0) else Option.none from rfl]
      rw [bind_single_isSome]
      constructor
      · rintro ⟨d, hp, hok⟩
        exact ⟨lhs0, rhs0, heq0, hnm0, d, hp, hok⟩
      · rintro ⟨lhs, rhs, heq, hnm, d, hp, hok⟩
        have hsp := split_once_eq_some_iff.mpr ⟨heq, hnm⟩
        rw [hs] at hsp
        have h1 : lhs0 = lhs := congrArg (·.1) (Option.some.inj hsp)
        exact ⟨d, h1 ▸ hp, hok⟩
  · intro hnm
    unfold extract_prefix_date_tz
    rw [split_once_eq_none_iff.mpr hnm]

/-- C4 witness: the amended characterisation instantiated at the concrete
names `"2024-06-15 proj"` (strictly formatted dated match),
`"24-6-5 proj"` (accepted through chrono's lenient widths) and the
space-free `"nodate"` (no match). -/
theorem C4_witness_dated_name :
    (extract_prefix_date "2024-06-15 proj".data).isSome = true
    ∧ (extract_prefix_date "24-6-5 proj".data).isSome = true
    ∧ extract_prefix_date "nodate".data = Option.none :=
  ⟨((C4_parse_succeeds_iff_first_space_split (fun _ => true) "2024-06-15 proj".data).1).mpr
      ⟨"2024-06-15".data, "proj".data, by decide, by decide,
        ⟨2024, 6, 15⟩, by decide, rfl⟩,
   ((C4_parse_succeeds_iff_first_space_split (fun _ => true) "24-6-5 proj".data).1).mpr
      ⟨"24-6-5".data, "proj".data, by decide, by decide,
        ⟨24, 6, 5⟩, by decide, rfl⟩,
   (C4_parse_succeeds_iff_first_space_split (fun _ => true) "nodate".data).2.1 (by decide)⟩

/-- C5: the claim says raw mode is disabled and the screen restored on
every exit path, including terminal-setup failure, via scoped
acquisition/release.  `main` (`src/main.rs` lines 196-212) releases the
terminal with plain sequential calls after the loop, so the `?` early
return taken when `execute!(stderr, EnterAlternateScreen)` fails — after
`enable_raw_mode()` already succeeded — propagates the error with raw mode
still enabled and nothing restored. -/
theorem C5_setup_failure_leaks_raw_mode :
    (main_flow ⟨true, true, false, true, Except.ok Option.none, true, true, true⟩).1
        = Except.error ()
    ∧ (main_flow ⟨true, true, false, true, Except.ok Option.none, true, true, true⟩).2.raw_mode
        = true := by
  refine ⟨rfl, rfl⟩

/-- Direct description of the folder `main` creates for a confirmed
selection `s`: nothing when `s` already exists, otherwise `s` itself when
it starts with today's date string, otherwise the hyphen-joined
date-prefixed name. -/
lemma created_dir_some (existing : List String) (today s : String) :
    created_dir existing today (Option.some s)
      = if s ∈ existing then Option.none
        else Option.some (if today.data.isPrefixOf s.data then s else today ++ "-" ++ s) := by
  simp only [created_dir, resolve_selection]
  by_cases hmem : s ∈ existing
  · simp [hmem]
  · simp [hmem]

/-- A concrete one-directory listing used by the witnesses. -/
def example_listing : Listing :=
  Option.some [Option.some ⟨"alpha", Option.some ⟨true, Option.some 5⟩⟩]

/-- A concrete scorer that matches nothing (the witnesses only exercise
states with an empty query, where the scorer is never consulted). -/
def example_matcher : Matcher := fun _ _ => Option.none

/-- A concrete scorer matching exactly the name `"alpha"` with score 7. -/
def example_scorer : Matcher := fun n _ =>
  if n = "alpha" then Option.some 7 else Option.none

/-- A concrete mid-session state used by the C7 witness. -/
def example_app : App :=
  { query := "x"
    all_entries := [⟨"alpha", 5, 0⟩, ⟨"beta", 3, 0⟩]
    filtered_entries := [⟨"alpha", 5, 0⟩, ⟨"beta", 3, 0⟩]
    selected_index := 0
    should_quit := false
    final_selection := Option.none }

/-- The initial state over `example_listing`, computed. -/
lemma example_app_new :
    App.new example_listing =
      { query := ""
        all_entries := [⟨"alpha", 5, 0⟩]
        filtered_entries := [⟨"alpha", 5, 0⟩]
        selected_index := 0
        should_quit := false
        final_selection := Option.none } := by
  simp [App.new, load_entries, example_listing]

/-- C6: in every reachable running state, confirm yields the name at the
cursor when the filtered list is non-empty, else the raw query when the
query is non-empty, else no outcome; abort always yields no outcome and
creates no directory. -/
theorem C6_confirm_cases_abort_none (m : Matcher) (l : Listing)
    (existing : List String) (today : String) (a : App)
    (hr : Reachable m l a) (hrun : a.should_quit = false) :
    (a.filtered_entries ≠ [] →
      (handle_event m TermEvent.enter a).final_selection
        = Option.some (a.filtered_entries.getD a.selected_index default).name)
    ∧ (a.filtered_entries = [] → a.query ≠ "" →
      (handle_event m TermEvent.enter a).final_selection = Option.some a.query)
    ∧ (a.filtered_entries = [] → a.query = "" →
      (handle_event m TermEvent.enter a).final_selection = Option.none)
    ∧ (handle_event m TermEvent.esc a).final_selection = Option.none
    ∧ created_dir existing today (handle_event m TermEvent.esc a).final_selection
        = Option.none := by
  have inv := reachable_appInv hr
  have hfin : a.final_selection = Option.none := inv.active_none hrun
  have h4 : (handle_event m TermEvent.esc a).final_selection = Option.none := by
    simpa [handle_event] using hfin
  refine ⟨?_, ?_, ?_, h4, by rw [h4]; rfl⟩
  · intro hne
    simp only [handle_event]
    rw [if_neg hne]
  · intro hemp hq
    simp only [handle_event]
    rw [if_pos hemp, if_neg hq]
  · intro hemp hq
    simp only [handle_event]
    rw [if_pos hemp, if_pos hq]
    simpa using hfin

/-- C6 witness: the cases instantiated at the freshly loaded one-entry
state. -/
theorem C6_witness_alpha :
    (handle_event example_matcher TermEvent.enter (App.new example_listing)).final_selection
        = Option.some "alpha"
    ∧ (handle_event example_matcher TermEvent.esc (App.new example_listing)).final_selection
        = Option.none := by
  have h := C6_confirm_cases_abort_none example_matcher example_listing [] "2024-06-15"
      (App.new example_listing) Reachable.init rfl
  have hne : (App.new example_listing).filtered_entries ≠ [] := by
    rw [example_app_new]
    simp
  exact ⟨(h.1 hne).trans (by rw [example_app_new]; rfl), h.2.2.2.1⟩

/-- C7: filtering re-derives from the full set — an empty query returns
the full entry list in input order; a non-empty query keeps exactly the
fuzzy-matched entries, each carrying its score, sorted descending by
score. -/
theorem C7_filter_recompute (m : Matcher) (a : App) :
    (a.query = "" → (update_search m a).filtered_entries = a.all_entries)
    ∧ (a.query ≠ "" →
        (update_search m a).filtered_entries.Perm
          (a.all_entries.filterMap fun e =>
            (m e.name a.query).map fun sc => { e with score := sc })
        ∧ (update_search m a).filtered_entries.Sorted (fun x y => y.score ≤ x.score)
        ∧ ∀ e2 ∈ (update_search m a).filtered_entries,
            m e2.name a.query = Option.some e2.score) := by
  constructor
  · intro hq
    unfold update_search
    rw [if_pos hq]
  · intro hq
    unfold update_search
    rw [if_neg hq]
    refine ⟨List.mergeSort_perm _ _, ?_, ?_⟩
    · have hp := List.sorted_mergeSort score_desc_trans score_desc_total
        (a.all_entries.filterMap fun e =>
          (m e.name a.query).map fun sc => { e with score := sc })
      exact hp.imp fun hxy => by simpa [score_desc] using hxy
    · intro e2 he2
      have he2' : e2 ∈ a.all_entries.filterMap fun e =>
          (m e.name a.query).map fun sc => { e with score := sc } :=
        List.mem_mergeSort.mp he2
      rw [List.mem_filterMap] at he2'
      obtain ⟨e0, _, hm⟩ := he2'
      rw [Option.map_eq_some'] at hm
      obtain ⟨sc, hsc, heq⟩ := hm
      rw [← heq]
      exact hsc

/-- C7 witness: with the concrete scorer, filtering the two-entry state
keeps exactly the matched entry with its score attached. -/
theorem C7_witness_alpha_scored :
    (update_search example_scorer example_app).filtered_entries.Perm
      [⟨"alpha", 5, 7⟩] := by
  have h := (C7_filter_recompute example_scorer example_app).2 (by decide)
  exact h.1.trans (List.Perm.of_eq (by decide))

/-- C8: in every reachable state the cursor is `0` on an empty filtered
list and within `[0, len)` on a non-empty one (it is a `Nat`, hence never
negative); any filter recomputation resets it to `0`; cursor-up moves to
`max(cursor-1, 0)` (truncated subtraction) and cursor-down to
`min(cursor+1, len-1)`, a no-op on an empty list. -/
theorem C8_cursor_clamped (m : Matcher) (l : Listing) (a : App)
    (hr : Reachable m l a) :
    (a.filtered_entries = [] → a.selected_index = 0)
    ∧ (a.filtered_entries ≠ [] → a.selected_index < a.filtered_entries.length)
    ∧ (update_search m a).selected_index = 0
    ∧ (handle_event m TermEvent.up a).selected_index = a.selected_index - 1
    ∧ (handle_event m TermEvent.down a).selected_index
        = min (a.selected_index + 1) (a.filtered_entries.length - 1) := by
  have inv := reachable_appInv hr
  refine ⟨inv.cursor_zero, inv.cursor_lt, ?_, ?_, ?_⟩
  · unfold update_search
    by_cases hq : a.query = ""
    · rw [if_pos hq]
    · rw [if_neg hq]
  · simp only [handle_event]
    by_cases hpos : a.selected_index > 0
    · rw [if_pos hpos]
    · rw [if_neg hpos]
      show a.selected_index = a.selected_index - 1
      omega
  · simp only [handle_event]
    by_cases hlt : a.selected_index < a.filtered_entries.length - 1
    · rw [if_pos hlt]
      show a.selected_index + 1 = min (a.selected_index + 1) (a.filtered_entries.length - 1)
      omega
    · rw [if_neg hlt]
      show a.selected_index = min (a.selected_index + 1) (a.filtered_entries.length - 1)
      by_cases hemp : a.filtered_entries = []
      · have h0 := inv.cursor_zero hemp
        rw [hemp, h0]
        simp
      · have h1 := inv.cursor_lt hemp
        omega

/-- C8 witness: cursor-down on the freshly loaded one-entry state stays at
`0`. -/
theorem C8_witness_down_noop :
    (handle_event example_matcher TermEvent.down (App.new example_listing)).selected_index
        = 0 := by
  have h := C8_cursor_clamped example_matcher example_listing
      (App.new example_listing) Reachable.init
  exact h.2.2.2.2.trans (by simp [example_app_new])

/-- C9: the loader keeps exactly the immediate children that are
directories with readable metadata (errored entries and non-directories
are skipped, not errors), sorted descending by modification time; an
unreadable base path yields an empty set and the session still starts
normally. -/
theorem C9_loader_dirs_sorted (l : Listing) :
    (∀ e : TryEntry, e ∈ (App.new l).all_entries ↔
      ∃ items, l = Option.some items ∧ ∃ d ∈ items, ∃ dd : FsDirEntry,
        d = Option.some dd ∧ ∃ md, dd.metadata = Option.some md ∧
          md.is_dir = true ∧ e = ⟨dd.name, md.modified.getD 0, 0⟩)
    ∧ (App.new l).all_entries.Sorted (fun x y => y.modified ≤ x.modified)
    ∧ (App.new l).filtered_entries = (App.new l).all_entries
    ∧ (App.new l).should_quit = false
    ∧ (App.new l).final_selection = Option.none
    ∧ (App.new Option.none).all_entries = [] := by
  refine ⟨?_, ?_, rfl, rfl, rfl, ?_⟩
  · intro e
    constructor
    · intro h
      exact mem_load_entries.mp (List.mem_mergeSort.mp h)
    · intro h
      exact List.mem_mergeSort.mpr (mem_load_entries.mpr h)
  · have hp := List.sorted_mergeSort modified_desc_trans modified_desc_total (load_entries l)
    exact hp.imp fun hxy => by simpa [modified_desc] using hxy
  · show (load_entries Option.none).mergeSort modified_desc = []
    rw [show load_entries Option.none = [] from rfl]
    exact List.mergeSort_nil

/-- C9 witness: the loaded directory `"alpha"` appears as an entry of the
freshly loaded state. -/
theorem C9_witness_alpha_loaded :
    (⟨"alpha", 5, 0⟩ : TryEntry) ∈ (App.new example_listing).all_entries :=
  ((C9_loader_dirs_sorted example_listing).1 ⟨"alpha", 5, 0⟩).mpr
    ⟨[Option.some ⟨"alpha", Option.some ⟨true, Option.some 5⟩⟩], rfl,
      Option.some ⟨"alpha", Option.some ⟨true, Option.some 5⟩⟩,
      List.mem_singleton.mpr rfl,
      ⟨"alpha", Option.some ⟨true, Option.some 5⟩⟩, rfl,
      ⟨true, Option.some 5⟩, rfl, rfl, rfl⟩

/-- C10: if every name in the directory listing is non-empty, then any
final selection the loop produces is non-empty (a confirmed entry name
comes from the listing; a confirmed query is non-empty by the confirm
logic; confirm on empty list and empty query produces no selection), and
hence any folder name the resolver goes on to create is non-empty too. -/
theorem C10_selection_nonempty (m : Matcher) (l : Listing) (a : App)
    (hnames : ∀ items, l = Option.some items → ∀ d ∈ items,
        ∀ dd : FsDirEntry, d = Option.some dd → dd.name ≠ "")
    (hr : Reachable m l a) :
    ∀ s, a.final_selection = Option.some s →
      s ≠ "" ∧ ∀ existing today n,
        created_dir existing today a.final_selection = Option.some n → n ≠ "" := by
  intro s hs
  have inv := reachable_appInv hr
  have hsne : s ≠ "" := by
    rcases inv.final_src s hs with h | ⟨e, he, hse⟩
    · exact h
    · have he2 : e ∈ load_entries l :=
        List.mem_mergeSort.mp (show e ∈ (load_entries l).mergeSort modified_desc from he)
      obtain ⟨items, hit, d, hd, dd, hdds, _, _, _, hee⟩ := mem_load_entries.mp he2
      have hne := hnames items hit d hd dd hdds
      rw [hse, hee]
      exact hne
  refine ⟨hsne, ?_⟩
  intro existing today n hn
  rw [hs, created_dir_some] at hn
  by_cases hmem : s ∈ existing
  · rw [if_pos hmem] at hn
    exact absurd hn (by simp)
  · rw [if_neg hmem] at hn
    have heq : (if today.data.isPrefixOf s.data then s else today ++ "-" ++ s) = n :=
      Option.some.inj hn
    by_cases hpf : today.data.isPrefixOf s.data = true
    · rw [if_pos hpf] at heq
      exact heq ▸ hsne
    · rw [if_neg hpf] at heq
      intro hcon
      rw [← heq] at hcon
      have hlen := congrArg String.length hcon
      rw [String.length_append, String.length_append] at hlen
      have h1 : ("-" : String).length = 1 := rfl
      have h0 : ("" : String).length = 0 := rfl
      omega

/-- C10 witness: confirming the loaded entry `"alpha"` yields a non-empty
selection. -/
theorem C10_witness_alpha_nonempty : ("alpha" : String) ≠ "" := by
  have hr : Reachable example_matcher example_listing
      (handle_event example_matcher TermEvent.enter (App.new example_listing)) :=
    Reachable.step TermEvent.enter Reachable.init rfl
  have hnames : ∀ items, example_listing = Option.some items → ∀ d ∈ items,
      ∀ dd : FsDirEntry, d = Option.some dd → dd.name ≠ "" := by
    intro items hit d hd dd hdd
    have hi : items = [Option.some ⟨"alpha", Option.some ⟨true, Option.some 5⟩⟩] := by
      simpa [example_listing] using hit.symm
    subst hi
    rw [List.mem_singleton] at hd
    subst hd
    have hdd2 : dd = ⟨"alpha", Option.some ⟨true, Option.some 5⟩⟩ := by
      simpa using hdd.symm
    subst hdd2
    decide
  have hfin : (handle_event example_matcher TermEvent.enter
      (App.new example_listing)).final_selection = Option.some "alpha" := by
    rw [example_app_new]
    decide
  exact (C10_selection_nonempty example_matcher example_listing _ hnames hr "alpha" hfin).1

end TryRs
